import Mathlib

/-!
# Verification of the `blindsign` ECC blind-signature crate

Shallow embedding of the crate's core (keypair, signer session, signature
verification, 96-byte wire codec) and proofs of the specification claims.

Modelling conventions:

* A curve25519 `Scalar` is an element of `ZMod L`, where `L` is the prime
  order of the Ristretto group.  `curve25519_dalek` keeps scalars reduced,
  and `Scalar::from_canonical_bytes` accepts exactly the little-endian
  encodings of values `< L`.
* The Ristretto group is cyclic of prime order `L`, so a `RistrettoPoint`
  is modelled by its discrete logarithm with respect to the basepoint: a
  `Point` wraps one `ZMod L` value, point addition is addition of logs and
  scalar multiplication is multiplication.  Compression is modelled as the
  canonical little-endian 32-byte encoding of the log, which preserves the
  only properties the code relies on: `compress` is injective and total,
  `decompress` succeeds exactly on canonical encodings, and the two are
  mutually inverse on that domain.
* A `[u8; N]` is a `List Byte` of length `N`; fallible Rust functions
  returning `crate::Result<T>` become `Except Error T`.
-/

/-- A byte, as in Rust's `u8`. -/
abbrev Byte := Fin 256

/-- The prime order of the Ristretto group (the order of the scalar field
of curve25519): `2^252 + 27742317777372353535851937790883648493`. -/
def L : ℕ := 2 ^ 252 + 27742317777372353535851937790883648493

instance : NeZero L := ⟨by norm_num [L]⟩

/-- A reduced scalar modulo the group order, as `curve25519_dalek`'s
`Scalar` (which is kept canonically reduced by all arithmetic). -/
abbrev Scalar := ZMod L

/-- Little-endian value of a byte string, as `curve25519_dalek` reads
`[u8; 32]` encodings. -/
def fromLE : List Byte → ℕ
  | [] => 0
  | b :: bs => b.val + 256 * fromLE bs

/-- Little-endian encoding of a natural number into `len` bytes. -/
def toLE : ℕ → ℕ → List Byte
  | _, 0 => []
  | n, len + 1 => ⟨n % 256, Nat.mod_lt n (by norm_num)⟩ :: toLE (n / 256) len

theorem toLE_length (n len : ℕ) : (toLE n len).length = len := by
  induction len generalizing n with
  | zero => rfl
  | succ len ih => simp [toLE, ih]

theorem fromLE_toLE (n len : ℕ) : fromLE (toLE n len) = n % 256 ^ len := by
  induction len generalizing n with
  | zero => simp [toLE, fromLE, Nat.mod_one]
  | succ len ih =>
      rw [toLE, fromLE, ih, pow_succ, mul_comm (256 ^ len) 256, Nat.mod_mul]

theorem fromLE_toLE_of_lt {n : ℕ} (len : ℕ) (h : n < 256 ^ len) :
    fromLE (toLE n len) = n := by
  rw [fromLE_toLE, Nat.mod_eq_of_lt h]

theorem toLE_fromLE (bs : List Byte) : toLE (fromLE bs) bs.length = bs := by
  induction bs with
  | nil => rfl
  | cons b bs ih =>
      simp only [fromLE, List.length_cons, toLE]
      congr 1
      · apply Fin.ext
        simp [Nat.add_mul_mod_self_left, Nat.mod_eq_of_lt b.isLt]
      · rw [Nat.add_mul_div_left _ _ (by norm_num : (0:ℕ) < 256),
            Nat.div_eq_of_lt b.isLt, zero_add, ih]

theorem fromLE_lt (bs : List Byte) : fromLE bs < 256 ^ bs.length := by
  induction bs with
  | nil => simp [fromLE]
  | cons b bs ih =>
      simp only [fromLE, List.length_cons, pow_succ, mul_comm (256 ^ bs.length) 256]
      calc b.val + 256 * fromLE bs
          < 256 + 256 * fromLE bs := by omega
        _ = 256 * (fromLE bs + 1) := by ring
        _ ≤ 256 * 256 ^ bs.length := by
            exact Nat.mul_le_mul_left 256 (Nat.succ_le_of_lt ih)

theorem L_lt_two_pow_256 : L < 256 ^ 32 := by norm_num [L]

namespace Scalar

/-- `Scalar::to_bytes`: the canonical little-endian 32-byte encoding. -/
def to_bytes (s : Scalar) : List Byte := toLE s.val 32

/-- `Scalar::from_canonical_bytes`: succeeds exactly on 32-byte strings
whose little-endian value is `< L` (the canonical reduced encodings). -/
def from_canonical_bytes (bs : List Byte) : Option Scalar :=
  if bs.length = 32 ∧ fromLE bs < L then some (fromLE bs : Scalar) else none

theorem to_bytes_length (s : Scalar) : s.to_bytes.length = 32 :=
  toLE_length _ _

theorem from_canonical_to_bytes (s : Scalar) :
    from_canonical_bytes s.to_bytes = some s := by
  have hlt : s.val < 256 ^ 32 := lt_trans (ZMod.val_lt s) L_lt_two_pow_256
  rw [from_canonical_bytes, if_pos]
  · rw [to_bytes, fromLE_toLE_of_lt 32 hlt, ZMod.natCast_rightInverse s]
  · exact ⟨to_bytes_length s, by rw [to_bytes, fromLE_toLE_of_lt 32 hlt]; exact ZMod.val_lt s⟩

end Scalar

/-- The crate's error enumeration (`src/lib.rs`). -/
inductive Error where
  | RngInitFailed
  | WiredScalarMalformed
  | WiredRistrettoPointMalformed
deriving DecidableEq

/-- A `RistrettoPoint`, represented by its discrete logarithm with respect
to the basepoint (the Ristretto group is cyclic of prime order `L`). -/
structure Point where
  log : Scalar
deriving DecidableEq

namespace Point

/-- `RISTRETTO_BASEPOINT_POINT`: the generator, discrete logarithm `1`. -/
def Generator : Point := ⟨1⟩

/-- Point addition (`+` on `RistrettoPoint`). -/
def add (p q : Point) : Point := ⟨p.log + q.log⟩

/-- Scalar multiplication `x * P` of a `Scalar` and a `RistrettoPoint`. -/
def smul (x : Scalar) (p : Point) : Point := ⟨x * p.log⟩

/-- `RistrettoPoint::compress(...).to_bytes()`: the canonical 32-byte
encoding, modelled as the little-endian encoding of the discrete log. -/
def compress (p : Point) : List Byte := toLE p.log.val 32

/-- `CompressedRistretto::decompress`: succeeds exactly on the canonical
encodings of points. -/
def decompress (bs : List Byte) : Option Point :=
  if bs.length = 32 ∧ fromLE bs < L then some ⟨(fromLE bs : Scalar)⟩ else none

/-- `subtle::ConstantTimeEq::ct_eq` on `RistrettoPoint`s: a
timing-independent representation comparison deciding group equality
(dalek compares coordinate cross-products; the model compares canonical
encodings, which decides the same relation). -/
def ct_eq (p q : Point) : Bool := decide (compress p = compress q)

theorem compress_length (p : Point) : p.compress.length = 32 :=
  toLE_length _ _

theorem decompress_compress (p : Point) : decompress p.compress = some p := by
  have hlt : p.log.val < 256 ^ 32 := lt_trans (ZMod.val_lt p.log) L_lt_two_pow_256
  rw [decompress, if_pos]
  · rw [compress, fromLE_toLE_of_lt 32 hlt, ZMod.natCast_rightInverse p.log]
  · exact ⟨compress_length p, by
      rw [compress, fromLE_toLE_of_lt 32 hlt]; exact ZMod.val_lt p.log⟩

theorem compress_injective : Function.Injective compress := by
  intro p q h
  have := congrArg decompress h
  rw [decompress_compress, decompress_compress] at this
  exact Option.some_injective _ this

theorem compress_decompress {bs : List Byte} {p : Point}
    (h : decompress bs = some p) : compress p = bs := by
  rw [decompress] at h
  by_cases hc : bs.length = 32 ∧ fromLE bs < L
  · rw [if_pos hc] at h
    obtain ⟨hlen, hlt⟩ := hc
    have hp : p = ⟨(fromLE bs : Scalar)⟩ := (Option.some_injective _ h).symm
    subst hp
    rw [compress, ZMod.val_cast_of_lt hlt, ← hlen, toLE_fromLE]
  · rw [if_neg hc] at h
    exact absurd h (by simp)

end Point

/-- Like `Point.decompress_compress` but phrased for scalars: parsing a
canonical encoding back gives the original bytes. -/
theorem Scalar.to_bytes_from_canonical {bs : List Byte} {s : Scalar}
    (h : Scalar.from_canonical_bytes bs = some s) : Scalar.to_bytes s = bs := by
  rw [from_canonical_bytes] at h
  by_cases hc : bs.length = 32 ∧ fromLE bs < L
  · rw [if_pos hc] at h
    obtain ⟨hlen, hlt⟩ := hc
    have hs : s = (fromLE bs : Scalar) := (Option.some_injective _ h).symm
    subst hs
    rw [to_bytes, ZMod.val_cast_of_lt hlt, ← hlen, toLE_fromLE]
  · rw [if_neg hc] at h
    exact absurd h (by simp)

/-- `BlindKeypair` (`src/keypair.rs`): the signer's long-term keypair.
The Rust fields are named `private` and `public`; `private` is a Lean
keyword, so they are `priv` and `pub` here.  The Rust accessors
`private()` / `public()` return exactly these fields. -/
structure BlindKeypair where
  priv : Scalar
  pub : Point
deriving DecidableEq

namespace BlindKeypair

/-- `BlindKeypair::generate` with the RNG made explicit: the sampled
private scalar `x` is a parameter; the public key is `x * Generator`. -/
def generate (x : Scalar) : BlindKeypair :=
  ⟨x, Point.smul x Point.Generator⟩

/-- `BlindKeypair::from_wired`: parses both components independently,
private scalar first. -/
def from_wired (priv_bytes pub_bytes : List Byte) : Except Error BlindKeypair :=
  match Scalar.from_canonical_bytes priv_bytes with
  | none => .error .WiredScalarMalformed
  | some x =>
    match Point.decompress pub_bytes with
    | none => .error .WiredRistrettoPointMalformed
    | some q => .ok ⟨x, q⟩

/-- `BlindKeypair::public_wired`. -/
def public_wired (kp : BlindKeypair) : List Byte := Point.compress kp.pub

/-- `BlindKeypair::private_wired`. -/
def private_wired (kp : BlindKeypair) : List Byte := Scalar.to_bytes kp.priv

end BlindKeypair

/-- `BlindSession` (`src/session.rs`): the signer's single-use session,
holding the secret nonce `k`. -/
structure BlindSession where
  k : Scalar

namespace BlindSession

/-- `BlindSession::new` with the RNG made explicit: given the sampled
nonce `k`, returns `(R'_wire, session)` with `R' = k * Generator`. -/
def new (k : Scalar) : List Byte × BlindSession :=
  ((Point.smul k Point.Generator).compress, ⟨k⟩)

/-- `BlindSession::sign_ep`: parses the challenge `e'`, then returns the
wire form of `S' = Xs * e' + k`. -/
def sign_ep (bs : BlindSession) (ep : List Byte) (xs : Scalar) :
    Except Error (List Byte) :=
  match Scalar.from_canonical_bytes ep with
  | none => .error .WiredScalarMalformed
  | some e => .ok (Scalar.to_bytes (xs * e + bs.k))

end BlindSession

/-- Modelled from the spec: `request::generate_e` lives in
`src/request.rs`, which is not among the provided sources.  Per the spec
(§4.3, §4.4) it computes `Hash512(R || message)` reduced to a scalar; the
512-bit digest is a pluggable external collaborator, so the reduction of
the hash to a scalar is a parameter `hash`, applied to the compressed `R`
followed by the message bytes. -/
def generate_e (hash : List Byte → Scalar) (r : Point) (msg : List Byte) :
    Scalar :=
  hash (Point.compress r ++ msg)

/-- `UnblindedSigData` (`src/signature.rs`): the authenticatable signature
triple `{e, s, r}`.  `BlindSignedMsg` in `src/message.rs` is a verbatim
duplicate of this type (the spec treats the two as one entity), with
byte-identical wire conversions and `authenticate`, so this one type
models both. -/
structure UnblindedSigData where
  e : Scalar
  s : Scalar
  r : Point
deriving DecidableEq

namespace UnblindedSigData

/-- `UnblindedSigData::new`. -/
def new (e s : Scalar) (r : Point) : UnblindedSigData := ⟨e, s, r⟩

/-- `UnblindedSigData::authenticate`: `S*P == e*Qs + R` (dalek's `==` on
`RistrettoPoint`s decides group equality). -/
def authenticate (u : UnblindedSigData) (pub_key : Point) : Bool :=
  decide (Point.smul u.s Point.Generator
            = Point.add (Point.smul u.e pub_key) u.r)

/-- `UnblindedSigData::const_authenticate`: the same check through
`subtle`'s constant-time `ct_eq`, then `unwrap_u8() == 1`. -/
def const_authenticate (u : UnblindedSigData) (pub_key : Point) : Bool :=
  Point.ct_eq (Point.smul u.s Point.Generator)
    (Point.add (Point.smul u.e pub_key) u.r)

/-- `UnblindedSigData::msg_authenticate`: recomputes
`e = H(R || msg)` via `request::generate_e` and checks `S*P == e*Qs + R`;
the stored `e` field is not used. -/
def msg_authenticate (u : UnblindedSigData) (hash : List Byte → Scalar)
    (pub_key : Point) (msg : List Byte) : Bool :=
  let e := generate_e hash u.r msg
  decide (Point.smul u.s Point.Generator = Point.add (Point.smul e pub_key) u.r)

/-- `UnblindedSigData::msg_const_authenticate`: as `msg_authenticate`, with
the constant-time comparison. -/
def msg_const_authenticate (u : UnblindedSigData) (hash : List Byte → Scalar)
    (pub_key : Point) (msg : List Byte) : Bool :=
  let e := generate_e hash u.r msg
  Point.ct_eq (Point.smul u.s Point.Generator)
    (Point.add (Point.smul e pub_key) u.r)

end UnblindedSigData

/-- `WiredUnblindedSigData` (`src/signature.rs`): the 96-byte wire form
`e ‖ S ‖ R`.  (`WiredBlindSignedMsg` in `src/message.rs` is identical.) -/
structure WiredUnblindedSigData where
  bytes : List Byte

namespace WiredUnblindedSigData

/-- `impl From<UnblindedSigData> for WiredUnblindedSigData`: writes `e` to
bytes `[0,32)`, `s` to `[32,64)`, compressed `r` to `[64,96)`.
(`from` is a Lean keyword, hence the name `from_internal`.) -/
def from_internal (usd : UnblindedSigData) : WiredUnblindedSigData :=
  ⟨Scalar.to_bytes usd.e ++ Scalar.to_bytes usd.s ++ Point.compress usd.r⟩

/-- `WiredUnblindedSigData::to_internal_format`: splits the 96 bytes into
the three 32-byte segments and parses them, `e` first, then `s`, then
`r`. -/
def to_internal_format (w : WiredUnblindedSigData) :
    Except Error UnblindedSigData :=
  let e_arr := w.bytes.take 32
  let s_arr := (w.bytes.drop 32).take 32
  let r_arr := w.bytes.drop 64
  match Scalar.from_canonical_bytes e_arr with
  | none => .error .WiredScalarMalformed
  | some e =>
    match Scalar.from_canonical_bytes s_arr with
    | none => .error .WiredScalarMalformed
    | some s =>
      match Point.decompress r_arr with
      | none => .error .WiredRistrettoPointMalformed
      | some r => .ok ⟨e, s, r⟩

/-- `WiredUnblindedSigData::to_bytes`. -/
def to_bytes (w : WiredUnblindedSigData) : List Byte := w.bytes

end WiredUnblindedSigData

/-- Modelled from the spec: the requester-side blinder `BlindRequest`
(`src/request.rs` is not among the provided sources).  Spec §4.3: after
blinding it holds the blinding scalar `a`, the challenge `e`, and the
unblinded commitment `R`. -/
structure BlindRequest where
  a : Scalar
  e : Scalar
  r : Point

namespace BlindRequest

/-- Modelled from the spec: `BlindRequest::new` / `new_specific_msg`
(spec §4.3 `new`/`new_for_message`), with the RNG made explicit — the
sampled blinding scalars `a`, `b` are parameters.  Parses the commitment
`R'` (failing with the point-malformed error), computes
`R = R' + a*Generator + b*PublicKey`, `e = Hash512(R || message)` reduced
to a scalar, and the blinded challenge `e' = e + b`; returns
`(e'_wire, blinder)`. -/
def new (hash : List Byte → Scalar) (a b : Scalar) (pub_key : Point)
    (rp_wire : List Byte) (msg : List Byte) :
    Except Error (List Byte × BlindRequest) :=
  match Point.decompress rp_wire with
  | none => .error .WiredRistrettoPointMalformed
  | some rp =>
    let r := Point.add (Point.add rp (Point.smul a Point.Generator))
      (Point.smul b pub_key)
    let e := generate_e hash r msg
    .ok (Scalar.to_bytes (e + b), ⟨a, e, r⟩)

/-- Modelled from the spec: `BlindRequest::gen_signed_msg` (spec §4.3
`finalize`): parses the signer's share `s'` (failing with the
scalar-malformed error), unblinds `s = s' + a`, and returns the triple
`{e, s, r: R}`. -/
def gen_signed_msg (br : BlindRequest) (sp_wire : List Byte) :
    Except Error UnblindedSigData :=
  match Scalar.from_canonical_bytes sp_wire with
  | none => .error .WiredScalarMalformed
  | some sp => .ok ⟨br.e, sp + br.a, br.r⟩

end BlindRequest

/-! ## Helper lemmas about the wire codec -/

theorem take_append_of_length {α : Type} (a b : List α) (n : ℕ)
    (ha : a.length = n) : (a ++ b).take n = a := by
  rw [← ha, List.take_left]

theorem drop_append_of_length {α : Type} (a b : List α) (n : ℕ)
    (ha : a.length = n) : (a ++ b).drop n = b := by
  rw [← ha, List.drop_left]

theorem wire_bytes_eq (t : UnblindedSigData) :
    (WiredUnblindedSigData.from_internal t).bytes =
      Scalar.to_bytes t.e ++ (Scalar.to_bytes t.s ++ Point.compress t.r) := by
  rw [WiredUnblindedSigData.from_internal, List.append_assoc]

theorem wire_length (t : UnblindedSigData) :
    (WiredUnblindedSigData.from_internal t).bytes.length = 96 := by
  rw [wire_bytes_eq]
  simp [Scalar.to_bytes_length, Point.compress_length]

theorem wire_take_e (t : UnblindedSigData) :
    (WiredUnblindedSigData.from_internal t).bytes.take 32 =
      Scalar.to_bytes t.e := by
  rw [wire_bytes_eq, take_append_of_length _ _ 32 (Scalar.to_bytes_length t.e)]

theorem wire_drop_32 (t : UnblindedSigData) :
    (WiredUnblindedSigData.from_internal t).bytes.drop 32 =
      Scalar.to_bytes t.s ++ Point.compress t.r := by
  rw [wire_bytes_eq, drop_append_of_length _ _ 32 (Scalar.to_bytes_length t.e)]

theorem wire_take_s (t : UnblindedSigData) :
    ((WiredUnblindedSigData.from_internal t).bytes.drop 32).take 32 =
      Scalar.to_bytes t.s := by
  rw [wire_drop_32, take_append_of_length _ _ 32 (Scalar.to_bytes_length t.s)]

theorem wire_drop_r (t : UnblindedSigData) :
    (WiredUnblindedSigData.from_internal t).bytes.drop 64 =
      Point.compress t.r := by
  have h : (64 : ℕ) = 32 + 32 := by norm_num
  rw [h, ← List.drop_drop, wire_drop_32,
    drop_append_of_length _ _ 32 (Scalar.to_bytes_length t.s)]

theorem wire_decode_encode (t : UnblindedSigData) :
    (WiredUnblindedSigData.from_internal t).to_internal_format =
      Except.ok t := by
  rw [WiredUnblindedSigData.to_internal_format]
  rw [wire_take_e, wire_take_s, wire_drop_r,
    Scalar.from_canonical_to_bytes, Scalar.from_canonical_to_bytes,
    Point.decompress_compress]

/-! ## Claim theorems -/

/-- Claim C3: wire round-trip.  Encoding a `SignatureTriple` always
succeeds (the encoder is a total function) and produces 96 bytes laid out
as `e` at `[0,32)`, `s` at `[32,64)`, compressed `r` at `[64,96)`;
decoding that encoding returns `Ok` of a triple with exactly the original
`e`, `s` and `r`. -/
theorem C3_wire_round_trip (t : UnblindedSigData) :
    (WiredUnblindedSigData.from_internal t).bytes.length = 96 ∧
    (WiredUnblindedSigData.from_internal t).bytes.take 32 =
      Scalar.to_bytes t.e ∧
    ((WiredUnblindedSigData.from_internal t).bytes.drop 32).take 32 =
      Scalar.to_bytes t.s ∧
    (WiredUnblindedSigData.from_internal t).bytes.drop 64 =
      Point.compress t.r ∧
    (WiredUnblindedSigData.from_internal t).to_internal_format =
      Except.ok t :=
  ⟨wire_length t, wire_take_e t, wire_take_s t, wire_drop_r t,
    wire_decode_encode t⟩

/-- Claim C9: reverse round-trip of the wire codec.  Whenever decoding a
96-byte wire value succeeds, re-encoding the decoded triple reproduces
exactly the original bytes: decoding accepts only canonical
representations, so decode-then-encode is the identity on its success
domain. -/
theorem C9_decode_then_encode (w : WiredUnblindedSigData)
    (t : UnblindedSigData) (hlen : w.bytes.length = 96)
    (h : w.to_internal_format = Except.ok t) :
    WiredUnblindedSigData.from_internal t = w := by
  rw [WiredUnblindedSigData.to_internal_format] at h
  rcases he : Scalar.from_canonical_bytes (w.bytes.take 32) with _ | e
  · rw [he] at h; exact absurd h (by simp)
  rcases hs : Scalar.from_canonical_bytes ((w.bytes.drop 32).take 32)
    with _ | s
  · rw [he, hs] at h; exact absurd h (by simp)
  rcases hr : Point.decompress (w.bytes.drop 64) with _ | r
  · rw [he, hs, hr] at h; exact absurd h (by simp)
  rw [he, hs, hr] at h
  simp only [Except.ok.injEq] at h
  subst h
  have h64 : w.bytes.drop 64 = (w.bytes.drop 32).drop 32 := by
    rw [List.drop_drop]
  rcases w with ⟨bs⟩
  simp only [WiredUnblindedSigData.from_internal, WiredUnblindedSigData.mk.injEq]
  rw [Scalar.to_bytes_from_canonical he, Scalar.to_bytes_from_canonical hs,
    Point.compress_decompress hr, List.append_assoc, h64,
    List.take_append_drop, List.take_append_drop]

/-- Claim C9 witness: a concrete decode-then-encode round trip. -/
theorem C9_decode_then_encode_witness :
    WiredUnblindedSigData.from_internal ⟨1, 2, ⟨3⟩⟩ =
      WiredUnblindedSigData.from_internal ⟨1, 2, ⟨3⟩⟩ :=
  C9_decode_then_encode _ ⟨1, 2, ⟨3⟩⟩ (wire_length ⟨1, 2, ⟨3⟩⟩)
    (wire_decode_encode ⟨1, 2, ⟨3⟩⟩)

/-- Claim C7: decode error classification and all-or-nothing behaviour.
For any 96-byte wire value, decoding succeeds exactly when both 32-byte
scalar segments parse canonically and the point segment decompresses;
if either scalar segment fails, the result is the scalar-malformed
error (the `e` segment is tried first, then `s`); if both scalars parse
but the point segment fails, the result is the point-malformed error.
The decode is a pure function of the bytes returning `Except`, so no
partially constructed triple can be produced and the input is not
mutated. -/
theorem C7_decode_classification (w : WiredUnblindedSigData)
    (hlen : w.bytes.length = 96) :
    ((∃ t, w.to_internal_format = Except.ok t) ↔
      ((∃ e, Scalar.from_canonical_bytes (w.bytes.take 32) = some e) ∧
       (∃ s, Scalar.from_canonical_bytes ((w.bytes.drop 32).take 32) =
          some s) ∧
       (∃ r, Point.decompress (w.bytes.drop 64) = some r))) ∧
    ((Scalar.from_canonical_bytes (w.bytes.take 32) = none ∨
        Scalar.from_canonical_bytes ((w.bytes.drop 32).take 32) = none) →
      w.to_internal_format = Except.error Error.WiredScalarMalformed) ∧
    (∀ e s, Scalar.from_canonical_bytes (w.bytes.take 32) = some e →
      Scalar.from_canonical_bytes ((w.bytes.drop 32).take 32) = some s →
      Point.decompress (w.bytes.drop 64) = none →
      w.to_internal_format = Except.error Error.WiredRistrettoPointMalformed) := by
  rcases he : Scalar.from_canonical_bytes (w.bytes.take 32) with _ | e <;>
    rcases hs : Scalar.from_canonical_bytes ((w.bytes.drop 32).take 32)
      with _ | s <;>
    rcases hr : Point.decompress (w.bytes.drop 64) with _ | r <;>
    simp_all [WiredUnblindedSigData.to_internal_format]

/-- Claim C7 witness: the encoding of a concrete triple has 96 bytes and
decodes successfully. -/
theorem C7_decode_classification_witness :
    ∃ t, (WiredUnblindedSigData.from_internal ⟨1, 2, ⟨3⟩⟩).to_internal_format =
      Except.ok t :=
  ((C7_decode_classification (WiredUnblindedSigData.from_internal ⟨1, 2, ⟨3⟩⟩)
      (wire_length ⟨1, 2, ⟨3⟩⟩)).1).mpr
    ⟨⟨1, by rw [wire_take_e]; exact Scalar.from_canonical_to_bytes 1⟩,
     ⟨2, by rw [wire_take_s]; exact Scalar.from_canonical_to_bytes 2⟩,
     ⟨⟨3⟩, by rw [wire_drop_r]; exact Point.decompress_compress ⟨3⟩⟩⟩


/-! ## Evaluation lemmas for `sign_ep` -/

theorem sign_ep_eval_some {ep : List Byte} {e : Scalar} (k x : Scalar)
    (he : Scalar.from_canonical_bytes ep = some e) :
    BlindSession.sign_ep ⟨k⟩ ep x =
      Except.ok (Scalar.to_bytes (x * e + k)) := by
  rw [BlindSession.sign_ep.eq_def, he]

theorem sign_ep_eval_none {ep : List Byte} (k x : Scalar)
    (he : Scalar.from_canonical_bytes ep = none) :
    BlindSession.sign_ep ⟨k⟩ ep x =
      Except.error Error.WiredScalarMalformed := by
  rw [BlindSession.sign_ep.eq_def, he]

/-- Claim C1: degenerate-blinding correctness.  For every private scalar
`x`, session nonce `k` and challenge scalar `e`: if the session `{k}`
(whose commitment is `R' = k * Generator`) signs the canonical wire form
of `e` yielding share bytes `sb`, then `sb` parses to `s' = x*e + k` and
the triple `{e, s: s', r: R'}` authenticates against `x * Generator` —
with trivial blinding `a = b = 0` the unblinded path equals the
unblinding-free path and the signature verifies. -/
theorem C1_degenerate_blinding (x k e : Scalar) (sb : List Byte)
    (sp : Scalar)
    (hsign : BlindSession.sign_ep ⟨k⟩ (Scalar.to_bytes e) x = Except.ok sb)
    (hparse : Scalar.from_canonical_bytes sb = some sp) :
    sp = x * e + k ∧
    (UnblindedSigData.new e sp (Point.smul k Point.Generator)).authenticate
      (Point.smul x Point.Generator) = true := by
  rw [sign_ep_eval_some k x (Scalar.from_canonical_to_bytes e)] at hsign
  injection hsign with hsign
  subst hsign
  rw [Scalar.from_canonical_to_bytes] at hparse
  injection hparse with hparse
  subst hparse
  refine ⟨rfl, ?_⟩
  simp only [UnblindedSigData.new, UnblindedSigData.authenticate,
    Point.smul, Point.add, Point.Generator, decide_eq_true_eq,
    Point.mk.injEq]
  ring

/-- Claim C1 witness: a concrete degenerate-blinding run verifies. -/
theorem C1_degenerate_blinding_witness :
    (UnblindedSigData.new 5 (3 * 5 + 7)
        (Point.smul 7 Point.Generator)).authenticate
      (Point.smul 3 Point.Generator) = true :=
  (C1_degenerate_blinding 3 7 5 (Scalar.to_bytes (3 * 5 + 7)) (3 * 5 + 7)
    (sign_ep_eval_some 7 3 (Scalar.from_canonical_to_bytes 5))
    (Scalar.from_canonical_to_bytes _)).2

/-- Claim C6: signing raises-iff.  For a 32-byte challenge `ep`,
`sign_ep` returns an error exactly when `ep` is not the canonical
encoding of a scalar (its little-endian value is `≥ L`), and that error
is the scalar-malformed variant; when `ep` canonically encodes `e`, it
returns `Ok` of the canonical encoding of `x*e + k`. -/
theorem C6_sign_raises_iff (k x : Scalar) (ep : List Byte)
    (hlen : ep.length = 32) :
    (∀ err, BlindSession.sign_ep ⟨k⟩ ep x = Except.error err ↔
        (L ≤ fromLE ep ∧ err = Error.WiredScalarMalformed)) ∧
    ∀ e, Scalar.from_canonical_bytes ep = some e →
      BlindSession.sign_ep ⟨k⟩ ep x =
        Except.ok (Scalar.to_bytes (x * e + k)) := by
  refine ⟨?_, fun e he => sign_ep_eval_some k x he⟩
  intro err
  by_cases hc : fromLE ep < L
  · have hsome : Scalar.from_canonical_bytes ep =
        some (fromLE ep : Scalar) := by
      rw [Scalar.from_canonical_bytes, if_pos ⟨hlen, hc⟩]
    rw [sign_ep_eval_some k x hsome]
    constructor
    · intro h; exact absurd h (by simp)
    · rintro ⟨h1, -⟩; omega
  · have hnone : Scalar.from_canonical_bytes ep = none := by
      rw [Scalar.from_canonical_bytes, if_neg (by tauto)]
    rw [sign_ep_eval_none k x hnone]
    constructor
    · intro h
      injection h with h
      exact ⟨le_of_not_lt hc, h.symm⟩
    · rintro ⟨-, rfl⟩
      rfl

/-- Claim C6 witness: the encoding of `L` itself is rejected as
scalar-malformed, and a canonical challenge is signed successfully. -/
theorem C6_sign_raises_iff_witness :
    BlindSession.sign_ep ⟨3⟩ (toLE L 32) 2 =
      Except.error Error.WiredScalarMalformed ∧
    BlindSession.sign_ep ⟨3⟩ (Scalar.to_bytes 5) 2 =
      Except.ok (Scalar.to_bytes (2 * 5 + 3)) :=
  ⟨((C6_sign_raises_iff 3 2 (toLE L 32) (toLE_length L 32)).1 _).mpr
      ⟨le_of_eq (fromLE_toLE_of_lt 32 L_lt_two_pow_256).symm, rfl⟩,
   (C6_sign_raises_iff 3 2 (Scalar.to_bytes 5) (Scalar.to_bytes_length 5)).2
      5 (Scalar.from_canonical_to_bytes 5)⟩

/-- Claim C10: canonicity of produced wire scalars.  Any share bytes an
honest signer returns from `sign_ep` are themselves a canonical scalar
encoding (the sum is reduced modulo the group order before
serialisation), so the canonical-scalar parser always succeeds on them;
likewise `private_wired()` of any keypair returns canonical bytes that
parse back to the private scalar. -/
theorem C10_canonical_outputs (x k : Scalar) (ep sb : List Byte)
    (h : BlindSession.sign_ep ⟨k⟩ ep x = Except.ok sb) :
    (∃ s, Scalar.from_canonical_bytes sb = some s) ∧
    ∀ kp : BlindKeypair,
      Scalar.from_canonical_bytes kp.private_wired = some kp.priv := by
  constructor
  · rcases he : Scalar.from_canonical_bytes ep with _ | e
    · rw [sign_ep_eval_none k x he] at h
      exact absurd h (by simp)
    · rw [sign_ep_eval_some k x he] at h
      injection h with h
      exact ⟨x * e + k, h ▸ Scalar.from_canonical_to_bytes _⟩
  · intro kp
    rw [BlindKeypair.private_wired]
    exact Scalar.from_canonical_to_bytes _

/-- Claim C10 witness: a concrete signing run produces canonical share
bytes. -/
theorem C10_canonical_outputs_witness :
    (∃ s, Scalar.from_canonical_bytes
        (Scalar.to_bytes ((2 : Scalar) * 5 + 3)) = some s) ∧
    ∀ kp : BlindKeypair,
      Scalar.from_canonical_bytes kp.private_wired = some kp.priv :=
  C10_canonical_outputs 2 3 (Scalar.to_bytes 5)
    (Scalar.to_bytes (2 * 5 + 3))
    (sign_ep_eval_some 3 2 (Scalar.from_canonical_to_bytes 5))

/-- For the model, `ct_eq` agrees with dalek's `==` (both decide group
equality): encodings are canonical, so comparing them compares points. -/
theorem ct_eq_eq_decide (p q : Point) : Point.ct_eq p q = decide (p = q) := by
  rw [Point.ct_eq]
  exact decide_eq_decide.mpr
    ⟨fun h => Point.compress_injective h, fun h => congrArg _ h⟩

/-- Claim C4: timing-variant agreement.  For every signature triple,
public key, hash instantiation and message, `const_authenticate` returns
the same boolean as `authenticate`, and `msg_const_authenticate` returns
the same boolean as `msg_authenticate`; the variants differ only in the
comparison primitive, which decides the same relation. -/
theorem C4_timing_variant_agreement (u : UnblindedSigData) (pk : Point)
    (hash : List Byte → Scalar) (msg : List Byte) :
    u.const_authenticate pk = u.authenticate pk ∧
    u.msg_const_authenticate hash pk msg = u.msg_authenticate hash pk msg := by
  constructor
  · simp only [UnblindedSigData.const_authenticate,
      UnblindedSigData.authenticate]
    exact ct_eq_eq_decide _ _
  · simp only [UnblindedSigData.msg_const_authenticate,
      UnblindedSigData.msg_authenticate]
    exact ct_eq_eq_decide _ _

/-- Claim C5: the message-binding verifiers are independent of the stored
challenge.  For any two triples agreeing on `s` and `r` but with
arbitrary `e` fields, `msg_authenticate` (and `msg_const_authenticate`)
return the same boolean: the check uses only `s`, `r`, the challenge
recomputed from `r` and the message, and the public key. -/
theorem C5_msg_variant_ignores_e (hash : List Byte → Scalar) (pk : Point)
    (msg : List Byte) (e₁ e₂ s : Scalar) (r : Point) :
    UnblindedSigData.msg_authenticate ⟨e₁, s, r⟩ hash pk msg =
      UnblindedSigData.msg_authenticate ⟨e₂, s, r⟩ hash pk msg ∧
    UnblindedSigData.msg_const_authenticate ⟨e₁, s, r⟩ hash pk msg =
      UnblindedSigData.msg_const_authenticate ⟨e₂, s, r⟩ hash pk msg :=
  ⟨rfl, rfl⟩

/-- Claim C8: keypair parsing without cross-check.  `from_wired` succeeds
exactly when the private bytes are a canonical scalar encoding and the
public bytes decompress to a valid point, the accessors return exactly
the parsed components, a non-canonical private scalar yields the
scalar-malformed error, an invalid point (after a canonical scalar)
yields the point-malformed error — and every `(scalar, point)` wire pair
is accepted, with no check that the point equals `private * Generator`. -/
theorem C8_from_wired_no_crosscheck (pb qb : List Byte) :
    (∀ kp, BlindKeypair.from_wired pb qb = Except.ok kp ↔
        (Scalar.from_canonical_bytes pb = some kp.priv ∧
         Point.decompress qb = some kp.pub)) ∧
    (BlindKeypair.from_wired pb qb =
        Except.error Error.WiredScalarMalformed ↔
      Scalar.from_canonical_bytes pb = none) ∧
    (BlindKeypair.from_wired pb qb =
        Except.error Error.WiredRistrettoPointMalformed ↔
      ((∃ xp, Scalar.from_canonical_bytes pb = some xp) ∧
        Point.decompress qb = none)) ∧
    ∀ (x : Scalar) (q : Point),
      BlindKeypair.from_wired (Scalar.to_bytes x) (Point.compress q) =
        Except.ok ⟨x, q⟩ := by
  refine ⟨?_, ?_, ?_, fun x q => by
    rw [BlindKeypair.from_wired.eq_def, Scalar.from_canonical_to_bytes,
      Point.decompress_compress]⟩ <;>
    rcases hp : Scalar.from_canonical_bytes pb with _ | xp <;>
    rcases hq : Point.decompress qb with _ | qq <;>
    simp_all [BlindKeypair.from_wired] <;>
    intro kp <;>
    constructor
  · rintro rfl; exact ⟨rfl, rfl⟩
  · rintro ⟨rfl, rfl⟩; rfl

/-! ## Evaluation lemmas for the protocol pipeline -/

theorem session_new_fst (k : Scalar) :
    (BlindSession.new k).1 = Point.compress (Point.smul k Point.Generator) :=
  rfl

theorem session_new_snd (k : Scalar) : (BlindSession.new k).2 = ⟨k⟩ := rfl

theorem generate_pub (x : Scalar) :
    (BlindKeypair.generate x).pub = Point.smul x Point.Generator := rfl

theorem request_new_eval (hash : List Byte → Scalar) (a b : Scalar)
    (pk rp : Point) (msg : List Byte) :
    BlindRequest.new hash a b pk (Point.compress rp) msg =
      Except.ok
        (Scalar.to_bytes
          (generate_e hash
            (Point.add (Point.add rp (Point.smul a Point.Generator))
              (Point.smul b pk)) msg + b),
         ⟨a,
          generate_e hash
            (Point.add (Point.add rp (Point.smul a Point.Generator))
              (Point.smul b pk)) msg,
          Point.add (Point.add rp (Point.smul a Point.Generator))
            (Point.smul b pk)⟩) := by
  rw [BlindRequest.new.eq_def, Point.decompress_compress]

theorem gen_signed_msg_eval (br : BlindRequest) (sp : Scalar) :
    br.gen_signed_msg (Scalar.to_bytes sp) =
      Except.ok ⟨br.e, sp + br.a, br.r⟩ := by
  rw [BlindRequest.gen_signed_msg.eq_def, Scalar.from_canonical_to_bytes]

/-- Claim C2: full blinding-cancellation invariant.  For every hash
instantiation, nonce `k`, private key `x` (public key `x*Generator`) and
blinding scalars `(a, b)`, the complete protocol run — new session with
`R' = k*Generator`, requester blinding `R = R' + a*Generator + b*Public`
and `e' = e + b`, signer share `s' = x*e' + k`, requester unblinding
`s = s' + a` — succeeds at every step and yields a triple satisfying
`s * Generator = e * Public + R`, so `authenticate(Public)` returns
`true`: the blinding terms cancel exactly. -/
theorem C2_blinding_cancellation (hash : List Byte → Scalar)
    (x k a b : Scalar) (msg : List Byte) :
    ∃ (ep sp : List Byte) (br : BlindRequest) (usd : UnblindedSigData),
      BlindRequest.new hash a b (BlindKeypair.generate x).pub
          (BlindSession.new k).1 msg = Except.ok (ep, br) ∧
      BlindSession.sign_ep (BlindSession.new k).2 ep x = Except.ok sp ∧
      BlindRequest.gen_signed_msg br sp = Except.ok usd ∧
      Point.smul usd.s Point.Generator =
        Point.add (Point.smul usd.e (BlindKeypair.generate x).pub) usd.r ∧
      usd.authenticate (BlindKeypair.generate x).pub = true := by
  rw [session_new_fst, session_new_snd, generate_pub]
  refine ⟨_, _, _, _,
    request_new_eval hash a b (Point.smul x Point.Generator)
      (Point.smul k Point.Generator) msg,
    sign_ep_eval_some k x (Scalar.from_canonical_to_bytes _),
    gen_signed_msg_eval _ _, ?_, ?_⟩
  · simp only [Point.smul, Point.add, Point.Generator, Point.mk.injEq]
    ring
  · simp only [UnblindedSigData.authenticate, Point.smul, Point.add,
      Point.Generator, decide_eq_true_eq, Point.mk.injEq]
    ring
